import Mathlib

/-!
Verification of the EditIndexHelper pipeline (src/EditIndexHelper.py).

The Python source is shallowly embedded below.  Numeric timecode arithmetic
is modelled with exact rational arithmetic (the Python source uses floats on
integer-valued data); Python exceptions are modelled with Option (none is a
raised exception at the modelled call site); Python dicts are modelled as
insertion-ordered association lists with the exact update semantics of dict
assignment (replace in place when the key is present, append otherwise).
The external regex library (re) is modelled as an abstract engine supplied as
a parameter: a compiled pattern is a pair of functions giving, for an input
string, the group-1 outcome of the first match and the outcome of a global
substitution.
-/

/-- Models Python round() on an exact rational: round half to even
(used by tc_to_frames and frames_to_tc for the frame rate, and for the
final rounding of tc_to_frames). -/
def pyRound (q : ℚ) : ℤ :=
  let fl := ⌊q⌋
  let frac := q - (fl : ℚ)
  if frac < 1 / 2 then fl
  else if 1 / 2 < frac then fl + 1
  else if fl % 2 = 0 then fl else fl + 1

/-- Decimal digit value d (d < 10) as a character. -/
def digitChar (d : ℕ) : Char := Char.ofNat (48 + d)

/-- Decimal representation of a natural number, most significant digit first;
the number 0 gives the empty list (it is always zero-padded below, matching
the width-2 zero padding of the Python format string). -/
def natToChars (n : ℕ) : List Char := (Nat.digits 10 n).reverse.map digitChar

/-- Zero-pad a digit list on the left to width 2: models the 02d format. -/
def pad2 (l : List Char) : List Char := List.replicate (2 - l.length) '0' ++ l

/-- Parse one decimal digit character. -/
def parseDigit (c : Char) : Option ℕ :=
  if 48 ≤ c.toNat ∧ c.toNat ≤ 57 then some (c.toNat - 48) else none

/-- Models Python float() restricted to the non-empty decimal digit strings
produced by frames_to_tc; any other input is a raised ValueError (none). -/
def parseNatChars (l : List Char) : Option ℕ :=
  match l with
  | [] => none
  | _ => l.foldlM (fun acc c => (parseDigit c).map (fun d => 10 * acc + d)) 0

/-- Models Python str.split on a colon. -/
def splitColon : List Char → List (List Char)
  | [] => [[]]
  | c :: rest =>
    if c = ':' then [] :: splitColon rest
    else
      match splitColon rest with
      | [] => [[c]]
      | h :: t => (c :: h) :: t

/-- Embeds EditTool.frames_to_tc (source lines 139-146).  The frame rate is
rounded to an integer; a rounded rate of zero is the Python
ZeroDivisionError raised by the divisions (none).  Negative rounded rates do
not occur for the positive rates the program is used with and are mapped to
none as well.  The four fields are h = frames / (3600 fps),
m = frames / (60 fps) mod 60, s = (frames mod 60 fps) / fps and
f = frames mod (60 fps) mod fps, each zero-padded to two digits and joined
with colons. -/
def frames_to_tc (frames : ℕ) (fps_float : ℚ) : Option (List Char) :=
  let fps := pyRound fps_float
  if fps ≤ 0 then none
  else
    let fr := fps.toNat
    let h := frames / (3600 * fr)
    let m := (frames / (60 * fr)) % 60
    let s := (frames % (60 * fr)) / fr
    let f := frames % (60 * fr) % fr
    some (pad2 (natToChars h) ++ (':' :: (pad2 (natToChars m) ++
          (':' :: (pad2 (natToChars s) ++ (':' :: pad2 (natToChars f)))))))

/-- Embeds EditTool.tc_to_frames (source lines 127-137).  The timecode is
split on colons, the fields are zipped with the weights
(3600, 60, 1, 1/fr) — the zip truncates like Python zip — each field is
parsed as a number, the weighted sum of seconds is multiplied by the rounded
rate and rounded.  A rounded rate of zero is the ZeroDivisionError of
1 / fr_int (none); a field that does not parse is the ValueError of
float(t) (none). -/
def tc_to_frames (tc : List Char) (fps_float : ℚ) : Option ℤ :=
  let fr := pyRound fps_float
  if fr ≤ 0 then none
  else
    let weights : List ℚ := [3600, 60, 1, 1 / (fr : ℚ)]
    let pairs := weights.zip (splitColon tc)
    match pairs.mapM (fun wt => (parseNatChars wt.2).map (fun (v : ℕ) => wt.1 * (v : ℚ))) with
    | none => none
    | some vals => some (pyRound (vals.sum * (fr : ℚ)))

/-- Converting n frames to a timecode string and back at a fixed rate. -/
def tcRoundTrip (n : ℕ) (fps : ℚ) : Option ℤ :=
  (frames_to_tc n fps).bind (fun tc => tc_to_frames tc fps)

/-! Model of the external regex library.  A compiled pattern is abstract: it
answers, for an input string, the group-1 outcome of the first match
(searchG1) and the outcome of a global substitution (subst); an engine maps
pattern strings to compiled patterns (none models re.error on compile). -/

/-- Outcome of m.group(1) on a successful search: err models the IndexError
raised when the pattern has no group 1; val none models the Python None
returned when group 1 exists but did not participate in the match; val
(some s) is a participating group. -/
inductive Group1Result where
  | err : Group1Result
  | val : Option (List Char) → Group1Result
deriving DecidableEq

/-- Abstract compiled regex pattern. -/
structure CompiledPattern where
  searchG1 : List Char → Option Group1Result
  subst : List Char → List Char → Option (List Char)

/-- Abstract regex engine: compile may fail (re.error). -/
structure ReEngine where
  compile : String → Option CompiledPattern

/-- Token map passed to the Template Engine (Python dict of str to str). -/
abbrev TokenMap := List (List Char × List Char)

/-- Left brace character (written by code point to keep braces out of
string literals). -/
def lbrace : Char := Char.ofNat 123

/-- Right brace character. -/
def rbrace : Char := Char.ofNat 125

/-- First-match lookup in a TokenMap. -/
def lookupTok : TokenMap → List Char → Option (List Char)
  | [], _ => none
  | (k, v) :: rest, name => if k = name then some v else lookupTok rest name

/-- Models str.format_map with the Default dict of regex_test (lines
98-100): scanning mode (first argument none) copies characters and enters
field mode at a left brace; field mode (some acc, accumulated name reversed)
collects the field name up to the right brace and substitutes the TokenMap
value, keeping an unresolved placeholder literally with its braces.  Only
plain name fields are modelled: conversion or format specs, doubled-brace
escapes and malformed templates (on which Python format raises) are outside
the modelled scope; a template ending inside a field keeps the text
literally. -/
def fillAux (toks : TokenMap) : Option (List Char) → List Char → List Char
  | none, [] => []
  | none, c :: rest =>
    if c = lbrace then fillAux toks (some []) rest
    else c :: fillAux toks none rest
  | some acc, [] => lbrace :: acc.reverse
  | some acc, c :: rest =>
    if c = rbrace then
      (match lookupTok toks acc.reverse with
       | some v => v
       | none => lbrace :: (acc.reverse ++ [rbrace])) ++ fillAux toks none rest
    else fillAux toks (some (c :: acc)) rest

/-- Fill a template from a TokenMap (the format_map call of line 110). -/
def fillTemplate (toks : TokenMap) (l : List Char) : List Char :=
  fillAux toks none l

/-- Embeds EditTool.regex_test (source lines 90-125) over the abstract
engine.  The returned Option models the Python return value: none is the
Python None that m.group(1) yields for a non-participating group 1, some s
is the string s.  A compile failure returns the empty string; with a
non-empty repl the global substitution is returned and a raising re.sub
returns the empty string; with an empty repl the result is group 1 of the
first match, the empty string when there is no match or when group(1)
raises IndexError. -/
def regex_test (re : ReEngine) (source : List Char) (tokens : TokenMap)
    (pattern : String) (repl : List Char) : Option (List Char) :=
  let compiledO := re.compile pattern
  let filled := fillTemplate tokens source
  match compiledO with
  | none => some []
  | some c =>
    if repl ≠ [] then
      match c.subst repl filled with
      | some r => some r
      | none => some []
    else
      match c.searchG1 filled with
      | none => some []
      | some Group1Result.err => some []
      | some (Group1Result.val v) => v

/-! Record normalisation: skip filters. -/

/-- One configured skip filter (an entry of prefs csv_match_skip). -/
structure SkipFilter where
  column : String
  pattern : String
  repl : List Char
  invert : Bool
  equals : List Char

/-- Per-filter comparison of read_csvs.is_match_skip (lines 464-471),
factored out: the regex result must be truthy (not None, not empty), the
equals target must be non-empty, and the comparison is equality for a
non-inverted filter and non-equality for an inverted one.  A column missing
from the row would raise in Python and does not occur for configured
filters; it is modelled as an empty source string. -/
def filterFires (re : ReEngine) (line : List (String × List Char))
    (f : SkipFilter) : Bool :=
  match regex_test re ((line.lookup f.column).getD []) [] f.pattern f.repl with
  | none => false
  | some v =>
    if v ≠ [] then
      if f.invert then decide (f.equals ≠ [] ∧ f.equals ≠ v)
      else decide (f.equals ≠ [] ∧ f.equals = v)
    else false

/-- Match counter of read_csvs.is_match_skip (lines 461-472). -/
def filterMatches (re : ReEngine) (line : List (String × List Char)) :
    List SkipFilter → ℕ
  | [] => 0
  | f :: rest =>
    (if filterFires re line f then 1 else 0) + filterMatches re line rest

/-- Embeds read_csvs.is_match_skip (lines 461-476): the line is skipped
when the counter is positive after all filters. -/
def is_match_skip (re : ReEngine) (filters : List SkipFilter)
    (line : List (String × List Char)) : Bool :=
  decide (0 < filterMatches re line filters)

/-- Follows the C5 claim wording, for refinement comparison with the source
(not translated from the source): a filter fires when its template result
is non-empty and compares positively to equalityTarget — equality for a
non-inverted filter, non-equality for an inverted one. -/
def specFilterFires (re : ReEngine) (line : List (String × List Char))
    (f : SkipFilter) : Bool :=
  match regex_test re ((line.lookup f.column).getD []) [] f.pattern f.repl with
  | none => false
  | some v =>
    decide (v ≠ []) &&
      (if f.invert then decide (v ≠ f.equals) else decide (v = f.equals))

/-! Matching engine. -/

/-- The fields of one normalised csv line that csv_matching reads. -/
structure CsvLine where
  csv_key : List Char
  csv_skip_line : Bool
  csv_sin_frames : Option ℤ
  csv_sout_frames : Option ℤ
deriving DecidableEq

/-- Embeds csv_matching.is_tc_matching (lines 653-659): false when any of
the four frame values is None, else requires the csv source range to lie
inside the media range. -/
def is_tc_matching (csv_in media_in csv_out media_out : Option ℤ) : Bool :=
  match csv_in, media_in, csv_out, media_out with
  | some ci, some mi, some co, some mo => decide (ci ≥ mi) && decide (co ≤ mo)
  | _, _, _, _ => false

/-- Embeds the inner line loop of csv_matching (lines 673-694) for one
media item: a line with csv_skip_line is skipped; the first line whose
csv_key equals the media key and, when match_tc, whose source range is
contained in the media range, is returned with its csv file; a line that
fails only the timecode check does not stop the scan. -/
def scanLines (match_tc : Bool) (tc_in tc_out : Option ℤ)
    (media_key : List Char) (csv_file : String) :
    List CsvLine → Option (String × CsvLine)
  | [] => none
  | l :: rest =>
    if l.csv_skip_line then
      scanLines match_tc tc_in tc_out media_key csv_file rest
    else if l.csv_key = media_key then
      if (if match_tc then
            is_tc_matching l.csv_sin_frames tc_in l.csv_sout_frames tc_out
          else true) then
        some (csv_file, l)
      else scanLines match_tc tc_in tc_out media_key csv_file rest
    else scanLines match_tc tc_in tc_out media_key csv_file rest

/-- Embeds the batch loop of csv_matching (lines 669-697) for one media
item: batches are scanned in mapping order and the first found line stops
the scan (first-fit). -/
def csv_matching_one (match_tc : Bool) (tc_in tc_out : Option ℤ)
    (media_key : List Char) :
    List (String × List CsvLine) → Option (String × CsvLine)
  | [] => none
  | (p, ls) :: rest =>
    match scanLines match_tc tc_in tc_out media_key p ls with
    | some r => some r
    | none => csv_matching_one match_tc tc_in tc_out media_key rest

/-- Eligibility of one line for one media item (derived from lines
675-683, used to state first-fit). -/
def lineEligible (match_tc : Bool) (tc_in tc_out : Option ℤ)
    (media_key : List Char) (l : CsvLine) : Bool :=
  !l.csv_skip_line && decide (l.csv_key = media_key) &&
    (if match_tc then
       is_tc_matching l.csv_sin_frames tc_in l.csv_sout_frames tc_out
     else true)

/-! Batch grouping. -/

/-- One record of the sort_me dict of _group_csvs (line 428). -/
structure GroupRec where
  csv_path : String
  csv_name : String
  group : Option String
  sortKey : Option String
deriving DecidableEq

/-- Models os.path.basename on slash-separated paths. -/
def basename (s : String) : String :=
  String.mk ((s.data.reverse.takeWhile (fun c => c ≠ '/')).reverse)

/-- Python dict assignment d[k] = v on an insertion-ordered association
list: replace in place when the key is present, append otherwise. -/
def dictSet {κ β : Type} [DecidableEq κ] (d : List (κ × β)) (k : κ) (v : β) :
    List (κ × β) :=
  if d.any (fun p => decide (p.1 = k)) then
    d.map (fun p => if p.1 = k then (k, v) else p)
  else d ++ [(k, v)]

/-- Python list append on the bucket stored at key k (line 430). -/
def bucketAppend (d : List (Option String × List GroupRec))
    (k : Option String) (r : GroupRec) : List (Option String × List GroupRec) :=
  d.map (fun p => if p.1 = k then (p.1, p.2 ++ [r]) else p)

/-- Embeds the bucketing loop of _group_csvs (lines 410-432).  The two
extractors stand for group(1) of the first match of the compiled common and
sort patterns on the basename (None when there is no match or no group 1).
A record with a present group key whose bucket already exists is appended
to that bucket; any other record replaces the bucket at its key (Python:
sort_me with key result_common assigned the one-element list) — in
particular every absent-key record replaces the single None bucket. -/
def bucketStep {α : Type} (ge se : String → Option String)
    (sm : List (Option String × List GroupRec)) (pv : String × α) :
    List (Option String × List GroupRec) :=
  let name := basename pv.1
  let rc := ge name
  let rs := se name
  let one : GroupRec := ⟨pv.1, name, rc, rs⟩
  if rc.isSome && (sm.lookup rc).isSome then bucketAppend sm rc one
  else dictSet sm rc [one]

def bucketsOf {α : Type} (ge se : String → Option String)
    (csvs : List (String × α)) : List (Option String × List GroupRec) :=
  csvs.foldl (bucketStep ge se) []

/-- Lexicographic code-point comparison of character lists: models the
Python string less-or-equal used by sorted on string keys. -/
def lexLe : List Char → List Char → Bool
  | [], _ => true
  | _ :: _, [] => false
  | a :: as, b :: bs =>
    if a.toNat < b.toNat then true
    else if b.toNat < a.toNat then false
    else lexLe as bs

/-- Sort-key comparison of two bucket records. -/
def keyLe (a b : GroupRec) : Bool :=
  lexLe (a.sortKey.getD "").data (b.sortKey.getD "").data

/-- Stable insertion of a record into a list ascending by sort key: the
record goes after every element whose key is less than or equal to its
own. -/
def insertSorted (r : GroupRec) : List GroupRec → List GroupRec
  | [] => [r]
  | x :: xs =>
    if keyLe x r then x :: insertSorted r xs
    else r :: x :: xs

/-- Stable ascending sort by sort key (insertion sort, processing the list
left to right.  A stable ascending result is unique, so this agrees with
the Timsort of Python sorted). -/
def pySortRecs (l : List GroupRec) : List GroupRec :=
  l.foldl (fun acc r => insertSorted r acc) []

/-- Models Python sorted on a bucket with key the sort entry: a list of
length at most one needs no comparison; a longer list whose sort keys are
all present sorts ascending and stable by plain string order; a None sort
key in a longer list is the TypeError of comparing None (none). -/
def pySortedRecs (l : List GroupRec) : Option (List GroupRec) :=
  if l.length ≤ 1 then some l
  else if l.all (fun r => r.sortKey.isSome) then some (pySortRecs l)
  else none

/-- Embeds the emission step of _group_csvs (lines 437-451) for one bucket:
sort the bucket; with highest_only keep only the last record of the sorted
bucket, else keep every record in sorted order; the kept csv content is
looked up again by path in the input mapping (a missing path would be a
KeyError and cannot occur). -/
def emitBucket {α : Type} (csvs : List (String × α)) (highest_only : Bool)
    (acc : List (String × α)) (bucket : List GroupRec) :
    Option (List (String × α)) :=
  match pySortedRecs bucket with
  | none => none
  | some sorted =>
    if highest_only then
      match sorted.getLast? with
      | none => none
      | some last =>
        match csvs.lookup last.csv_path with
        | none => none
        | some v => some (dictSet acc last.csv_path v)
    else
      sorted.foldlM (fun a r =>
        (csvs.lookup r.csv_path).map (fun v => dictSet a r.csv_path v)) acc

/-- Embeds _group_csvs (lines 385-451) on the valid-patterns path (when a
pattern fails to compile the source returns its input unchanged; the
extractor functions stand for the successfully compiled patterns). -/
def group_csvs {α : Type} (ge se : String → Option String)
    (highest_only : Bool) (csvs : List (String × α)) :
    Option (List (String × α)) :=
  (bucketsOf ge se csvs).foldlM
    (fun acc b => emitBucket csvs highest_only acc b.2) []

/-! Media discovery. -/

/-- The csv_matching preferences used by find_media. -/
structure MediaConf where
  media : List Char
  media_pattern : String
  media_repl : List Char

/-- Embeds the find_media loop (lines 600-612) over discovered files in
order: the key is the Template Engine result on the configured media
template with the file's parsed-name token map (tokensOf, a parameter
standing for parse_file_name); a file whose result is None or empty is
excluded; the entry is stored under the key by dict assignment, replacing
any earlier entry with that key.  The metadata probe is the abstract
external collaborator (get_metadata). -/
def find_media {μ : Type} (re : ReEngine) (conf : MediaConf)
    (tokensOf : String → TokenMap) (probe : String → μ)
    (files : List String) : List (List Char × (String × μ)) :=
  files.foldl (fun acc f =>
    match regex_test re conf.media (tokensOf f) conf.media_pattern conf.media_repl with
    | none => acc
    | some r => if r ≠ [] then dictSet acc r (f, probe f) else acc) []

/-- Derived key of one media file (the guard of lines 605-612). -/
def mediaKeyOf (re : ReEngine) (conf : MediaConf)
    (tokensOf : String → TokenMap) (f : String) : Option (List Char) :=
  match regex_test re conf.media (tokensOf f) conf.media_pattern conf.media_repl with
  | none => none
  | some r => if r ≠ [] then some r else none

/-! Output assembly: the reel field. -/

/-- Embeds the reel handling of matched_media_to_edls.media_to_edl_line
(lines 722-727): a None or empty derived reel defaults to AX; the reel is
padded with spaces up to max_reel characters (Python multiplies the space
by a non-positive count into the empty string, so a longer reel is kept in
full); one separator space is appended. -/
def format_reel (raw : Option (List Char)) (max_reel : ℕ) : List Char :=
  let reel := match raw with
    | none => ['A', 'X']
    | some [] => ['A', 'X']
    | some r => r
  reel ++ List.replicate (max_reel - reel.length) ' ' ++ [' ']

/-! Concrete instances used by counterexamples and witnesses. -/

/-- Engine whose every pattern fails to compile. -/
def reFailAll : ReEngine := ⟨fun _ => none⟩

/-- Compiled pattern whose first match has group 1 equal to the one-letter
string x on every input. -/
def cpValX : CompiledPattern :=
  ⟨fun _ => some (Group1Result.val (some ['x'])), fun _ s => some s⟩

/-- Engine compiling every pattern to cpValX. -/
def reValX : ReEngine := ⟨fun _ => some cpValX⟩

/-- Compiled pattern that never matches. -/
def cpNoMatch : CompiledPattern := ⟨fun _ => none, fun _ _ => none⟩

/-- Engine compiling every pattern to cpNoMatch. -/
def reNoMatch : ReEngine := ⟨fun _ => some cpNoMatch⟩

/-- Compiled pattern whose group(1) raises IndexError on every input. -/
def cpErr : CompiledPattern := ⟨fun _ => some Group1Result.err, fun _ _ => none⟩

/-- Engine compiling every pattern to cpErr. -/
def reErr : ReEngine := ⟨fun _ => some cpErr⟩

/-- Inverted skip filter with an empty equality target. -/
def c5Filter : SkipFilter := ⟨"c", "p", [], true, []⟩

/-- Group extractor that never yields a key. -/
def geNone : String → Option String := fun _ => none

/-- Sort extractor that always yields the empty string. -/
def seEmpty : String → Option String := fun _ => some ""

/-- Group extractor taking the first character of the name (models a
one-character capture at the start of the name). -/
def geFirst : String → Option String := fun n => some (String.mk (n.data.take 1))

/-- Sort extractor taking the name from its third character on (models a
capture of the version suffix). -/
def seDrop2 : String → Option String := fun n => some (String.mk (n.data.drop 2))

theorem pyRound_intCast (n : ℤ) : pyRound (n : ℚ) = n := by
  unfold pyRound
  simp [Int.floor_intCast]

theorem pyRound_natCast (n : ℕ) : pyRound (n : ℚ) = n := by
  have : ((n : ℤ) : ℚ) = (n : ℚ) := by push_cast; rfl
  rw [← this, pyRound_intCast]

theorem parseDigit_digitChar (d : ℕ) (hd : d < 10) :
    parseDigit (digitChar d) = some d := by
  interval_cases d <;> rfl

theorem digitChar_ne_colon (d : ℕ) (hd : d < 10) : digitChar d ≠ ':' := by
  interval_cases d <;> decide

theorem foldl_digits_step (l : List ℕ) (hl : ∀ d ∈ l, d < 10) (acc : ℕ) :
    (l.map digitChar).foldlM
        (fun acc c => (parseDigit c).map (fun d => 10 * acc + d)) acc =
      some (l.foldl (fun a d => 10 * a + d) acc) := by
  induction l generalizing acc with
  | nil => rfl
  | cons d l ih =>
    have hd : d < 10 := hl d (List.mem_cons_self d l)
    have hl2 : ∀ d ∈ l, d < 10 := fun x hx => hl x (List.mem_cons_of_mem d hx)
    simp only [List.map_cons, List.foldlM_cons, parseDigit_digitChar d hd,
      Option.map_some', Option.bind_eq_bind, Option.some_bind]
    exact ih hl2 (10 * acc + d)

theorem foldl_reverse_ofDigits (l : List ℕ) (acc : ℕ) :
    l.reverse.foldl (fun a d => 10 * a + d) acc =
      acc * 10 ^ l.length + Nat.ofDigits 10 l := by
  induction l generalizing acc with
  | nil => simp [Nat.ofDigits]
  | cons d l ih =>
    simp only [List.reverse_cons, List.foldl_append, List.foldl_cons,
      List.foldl_nil, ih, Nat.ofDigits_cons, List.length_cons]
    ring

theorem parseNatChars_ne_nil (l : List Char) (h : l ≠ []) :
    parseNatChars l =
      l.foldlM (fun acc c => (parseDigit c).map (fun d => 10 * acc + d)) 0 := by
  cases l with
  | nil => exact absurd rfl h
  | cons c rest => rfl

theorem parse_pad2_natToChars (n : ℕ) :
    parseNatChars (pad2 (natToChars n)) = some n := by
  have h0 : digitChar 0 = '0' := rfl
  have hrep : List.replicate (2 - (natToChars n).length) '0' =
      (List.replicate (2 - (natToChars n).length) 0).map digitChar := by
    rw [List.map_replicate, h0]
  have hall : ∀ d ∈ List.replicate (2 - (natToChars n).length) 0 ++
      (Nat.digits 10 n).reverse, d < 10 := by
    intro d hd
    rcases List.mem_append.mp hd with h | h
    · rw [List.eq_of_mem_replicate h]; norm_num
    · exact Nat.digits_lt_base (by norm_num) (List.mem_reverse.mp h)
  have hform : pad2 (natToChars n) =
      (List.replicate (2 - (natToChars n).length) 0 ++
        (Nat.digits 10 n).reverse).map digitChar := by
    rw [pad2, List.map_append, ← hrep]; rfl
  have hne : pad2 (natToChars n) ≠ [] := by
    intro hc
    have hlen := congrArg List.length hc
    rw [pad2] at hlen
    simp only [List.length_append, List.length_replicate, List.length_nil] at hlen
    omega
  have hfold := foldl_digits_step
    (List.replicate (2 - (natToChars n).length) 0 ++ (Nat.digits 10 n).reverse)
    hall 0
  have hval : (List.replicate (2 - (natToChars n).length) 0 ++
      (Nat.digits 10 n).reverse).foldl (fun a d => 10 * a + d) 0 = n := by
    rw [List.foldl_append]
    have hzero : ∀ (k : ℕ),
        (List.replicate k 0).foldl (fun a d => 10 * a + d) 0 = 0 := by
      intro k
      induction k with
      | zero => rfl
      | succ k ih => simpa [List.replicate_succ] using ih
    rw [hzero, foldl_reverse_ofDigits]
    simp [Nat.ofDigits_digits]
  rw [parseNatChars_ne_nil _ hne, hform, hfold, hval]

theorem colon_not_mem_field (k : ℕ) : ':' ∉ pad2 (natToChars k) := by
  intro hmem
  rw [pad2] at hmem
  rcases List.mem_append.mp hmem with h | h
  · have := List.eq_of_mem_replicate h
    exact absurd this (by decide)
  · rw [natToChars] at h
    rcases List.mem_map.mp h with ⟨d, hd, hdc⟩
    exact digitChar_ne_colon d
      (Nat.digits_lt_base (by norm_num) (List.mem_reverse.mp hd)) hdc

theorem splitColon_no_colon (xs : List Char) (h : ':' ∉ xs) :
    splitColon xs = [xs] := by
  induction xs with
  | nil => rfl
  | cons c rest ih =>
    have hc : c ≠ ':' := fun hc => h (hc ▸ List.mem_cons_self c rest)
    have hrest : ':' ∉ rest := fun hr => h (List.mem_cons_of_mem c hr)
    rw [splitColon, if_neg hc, ih hrest]

theorem splitColon_append (xs ys : List Char) (h : ':' ∉ xs) :
    splitColon (xs ++ ':' :: ys) = xs :: splitColon ys := by
  induction xs with
  | nil =>
    simp only [List.nil_append]
    rw [splitColon, if_pos rfl]
  | cons c rest ih =>
    have hc : c ≠ ':' := fun hc => h (hc ▸ List.mem_cons_self c rest)
    have hrest : ':' ∉ rest := fun hr => h (List.mem_cons_of_mem c hr)
    rw [List.cons_append, splitColon, if_neg hc, ih hrest]

theorem tc_fields_recompose (n fr : ℕ) :
    3600 * fr * (n / (3600 * fr)) + 60 * fr * ((n / (60 * fr)) % 60)
      + fr * ((n % (60 * fr)) / fr) + n % (60 * fr) % fr = n := by
  have e1 := Nat.div_add_mod n (60 * fr)
  have e2 := Nat.div_add_mod (n / (60 * fr)) 60
  have e3 := Nat.div_add_mod (n % (60 * fr)) fr
  have e4 : n / (60 * fr) / 60 = n / (3600 * fr) := by
    rw [Nat.div_div_eq_div_mul]
    congr 1
    ring
  calc 3600 * fr * (n / (3600 * fr)) + 60 * fr * ((n / (60 * fr)) % 60)
        + fr * ((n % (60 * fr)) / fr) + n % (60 * fr) % fr
      = 60 * fr * (60 * (n / (60 * fr) / 60) + (n / (60 * fr)) % 60)
        + (fr * ((n % (60 * fr)) / fr) + n % (60 * fr) % fr) := by
        rw [e4]; ring
    _ = 60 * fr * (n / (60 * fr)) + n % (60 * fr) := by rw [e2, e3]
    _ = n := e1

theorem tcRoundTrip_core (fps : ℚ) (fr n : ℕ) (hfr : 0 < fr)
    (hrnd : pyRound fps = (fr : ℤ)) : tcRoundTrip n fps = some (n : ℤ) := by
  have hnot2 : ¬ ((fr : ℤ) ≤ 0) := by omega
  simp only [tcRoundTrip, frames_to_tc, tc_to_frames, hrnd, Int.toNat_natCast,
    if_neg hnot2, Option.some_bind, Int.cast_natCast, List.cons_append]
  rw [splitColon_append _ _ (colon_not_mem_field _),
      splitColon_append _ _ (colon_not_mem_field _),
      splitColon_append _ _ (colon_not_mem_field _),
      splitColon_no_colon _ (colon_not_mem_field _)]
  simp only [List.zip_cons_cons, List.zip_nil_right, List.mapM, List.mapM.loop,
    parse_pad2_natToChars, Option.map_some', List.reverse_cons, List.reverse_nil,
    List.nil_append, List.cons_append, List.sum_cons, List.sum_nil,
    Option.pure_def]
  simp only [Option.bind_eq_bind]
  simp only [Option.some_bind]
  rw [List.sum_cons, List.sum_cons, List.sum_cons, List.sum_cons, List.sum_nil]
  have hq : (fr : ℚ) ≠ 0 := Nat.cast_ne_zero.mpr (by omega)
  have hc := congrArg (fun (k : ℕ) => (k : ℚ)) (tc_fields_recompose n fr)
  have e5 : n % (60 * fr) % fr = n % fr := Nat.mod_mod_of_dvd n ⟨60, by ring⟩
  rw [e5] at hc
  push_cast at hc
  have hX : ((3600 : ℚ) * ((n / (3600 * fr) : ℕ) : ℚ) +
      ((60 : ℚ) * (((n / (60 * fr)) % 60 : ℕ) : ℚ) +
        ((1 : ℚ) * (((n % (60 * fr)) / fr : ℕ) : ℚ) +
          (1 / (fr : ℚ) * (((n % (60 * fr)) % fr : ℕ) : ℚ) + 0)))) * (fr : ℚ) =
      ((n : ℕ) : ℚ) := by
    rw [e5]
    field_simp
    linear_combination hc
  rw [hX, pyRound_natCast]

/-- C3 (amended): for every rate fps whose Python rounding is a positive
integer and every natural frame count n, converting n frames to a timecode
string and back at fps yields n again. -/
theorem c3_tc_round_trip (fps : ℚ) (n : ℕ) (h1 : 1 ≤ pyRound fps) :
    tcRoundTrip n fps = some (n : ℤ) :=
  tcRoundTrip_core fps (pyRound fps).toNat n (by omega) (by omega)

theorem scanLines_eq_find (mt : Bool) (ti tcO : Option ℤ) (key : List Char)
    (p : String) (ls : List CsvLine) :
    scanLines mt ti tcO key p ls =
      (ls.map (fun l => (p, l))).find? (fun pr => lineEligible mt ti tcO key pr.2) := by
  induction ls with
  | nil => rfl
  | cons l rest ih =>
    by_cases hskip : l.csv_skip_line
    · have he : lineEligible mt ti tcO key l = false := by
        simp [lineEligible, hskip]
      simp [scanLines, hskip, List.find?_cons, he, ih]
    · by_cases hkey : l.csv_key = key
      · by_cases htc : (if mt then
            is_tc_matching l.csv_sin_frames ti l.csv_sout_frames tcO
          else true) = true
        · have he : lineEligible mt ti tcO key l = true := by
            simp [lineEligible, hskip, hkey, htc]
          simp [scanLines, hskip, hkey, htc, List.find?_cons, he]
        · have htc2 : (if mt then
              is_tc_matching l.csv_sin_frames ti l.csv_sout_frames tcO
            else true) = false := by
            revert htc
            cases (if mt then
              is_tc_matching l.csv_sin_frames ti l.csv_sout_frames tcO
            else true) <;> simp
          have he : lineEligible mt ti tcO key l = false := by
            simp [lineEligible, hskip, hkey, htc2]
          simp [scanLines, hskip, hkey, htc2, List.find?_cons, he, ih]
      · have he : lineEligible mt ti tcO key l = false := by
          simp [lineEligible, hskip, hkey]
        simp [scanLines, hskip, hkey, List.find?_cons, he, ih]

theorem scanLines_skip_false (mt : Bool) (ti tcO : Option ℤ) (key : List Char)
    (q : String) (ls : List CsvLine) (p : String) (l : CsvLine)
    (h : scanLines mt ti tcO key q ls = some (p, l)) :
    l.csv_skip_line = false := by
  rw [scanLines_eq_find] at h
  have h2 := List.find?_some h
  simp only [lineEligible, Bool.and_eq_true, Bool.not_eq_true'] at h2
  exact h2.1.1

/-- C2: reconciliation is first-fit — for every media item, scanning the
batches in mapping order and the lines of each batch in file order returns
exactly the first record of the flattened scan order that is non-skipped,
key-equal and passes the optional temporal check. -/
theorem c2_first_fit (mt : Bool) (ti tcO : Option ℤ) (key : List Char)
    (bs : List (String × List CsvLine)) :
    csv_matching_one mt ti tcO key bs =
      (bs.flatMap (fun b => b.2.map (fun l => (b.1, l)))).find?
        (fun pr => lineEligible mt ti tcO key pr.2) := by
  induction bs with
  | nil => rfl
  | cons b rest ih =>
    obtain ⟨p, ls⟩ := b
    simp only [csv_matching_one, List.flatMap_cons, List.find?_append,
      ← scanLines_eq_find, ih]
    cases scanLines mt ti tcO key p ls <;> simp [Option.or]

/-- C6: a skipped record is never selected — whenever reconciliation
returns a record for a media item, that record has csv_skip_line false,
for every temporal-check setting. -/
theorem c6_skipped_never_selected (mt : Bool) (ti tcO : Option ℤ)
    (key : List Char) (bs : List (String × List CsvLine)) (p : String)
    (l : CsvLine) (h : csv_matching_one mt ti tcO key bs = some (p, l)) :
    l.csv_skip_line = false := by
  induction bs with
  | nil => simp [csv_matching_one] at h
  | cons b rest ih =>
    obtain ⟨q, ls⟩ := b
    simp only [csv_matching_one] at h
    cases hs : scanLines mt ti tcO key q ls with
    | none => rw [hs] at h; exact ih h
    | some r =>
      rw [hs] at h
      cases h
      exact scanLines_skip_false mt ti tcO key q ls p l hs

theorem c6_skipped_never_selected_witness :
    (CsvLine.mk ['k'] false none none).csv_skip_line = false :=
  c6_skipped_never_selected false none none ['k']
    [("f", [CsvLine.mk ['k'] false none none])] "f"
    (CsvLine.mk ['k'] false none none) rfl

/-- C1: with the temporal check enabled, a key-equal non-skipped record is
accepted exactly when all four frame values are present and the record's
source range is contained in the item's decoded range; in particular source
range 10 to 20 is accepted against decoded range 5 to 25 and rejected
against 12 to 18. -/
theorem c1_tc_containment :
    (∀ ci mi co mo : Option ℤ, is_tc_matching ci mi co mo = true ↔
      ∃ a b c d : ℤ, ci = some a ∧ mi = some b ∧ co = some c ∧ mo = some d ∧
        b ≤ a ∧ c ≤ d) ∧
    (∀ (tcin tcout : Option ℤ) (key : List Char) (p : String) (l : CsvLine),
      l.csv_skip_line = false → l.csv_key = key →
      (scanLines true tcin tcout key p [l] = some (p, l) ↔
        is_tc_matching l.csv_sin_frames tcin l.csv_sout_frames tcout = true)) ∧
    is_tc_matching (some 10) (some 5) (some 20) (some 25) = true ∧
    is_tc_matching (some 10) (some 12) (some 20) (some 18) = false := by
  refine ⟨?_, ?_, by decide, by decide⟩
  · intro ci mi co mo
    constructor
    · intro h
      rcases ci with _ | a <;> rcases mi with _ | b <;>
        rcases co with _ | c <;> rcases mo with _ | d <;>
        simp [is_tc_matching] at h
      exact ⟨a, b, c, d, rfl, rfl, rfl, rfl, h.1, h.2⟩
    · rintro ⟨a, b, c, d, rfl, rfl, rfl, rfl, h1, h2⟩
      simp [is_tc_matching]
      exact ⟨h1, h2⟩
  · intro tcin tcout key p l hskip hkey
    constructor
    · intro h
      by_cases htc : is_tc_matching l.csv_sin_frames tcin l.csv_sout_frames tcout = true
      · exact htc
      · simp [scanLines, hskip, hkey, htc] at h
    · intro htc
      simp [scanLines, hskip, hkey, htc]

theorem c1_tc_containment_witness :
    scanLines true (some 5) (some 25) ['k'] "f"
        [CsvLine.mk ['k'] false (some 10) (some 20)] =
      some ("f", CsvLine.mk ['k'] false (some 10) (some 20)) :=
  (c1_tc_containment.2.1 (some 5) (some 25) ['k'] "f"
    (CsvLine.mk ['k'] false (some 10) (some 20)) rfl rfl).mpr (by decide)

/-- C3 counterexample: the rate one quarter is positive, yet the round trip
at frame count 0 raises rather than returning 0 — Python round(0.25) is 0
and both conversions then divide by zero — so the identity does not hold
for every positive rate. -/
theorem c3_tc_round_trip_cex :
    (0 : ℚ) < 1 / 4 ∧ tcRoundTrip 0 (1 / 4) = none := by
  constructor
  · norm_num
  · have hf : ⌊(1 / 4 : ℚ)⌋ = 0 := by
      rw [Int.floor_eq_iff]
      norm_num
    have hp : pyRound (1 / 4) = 0 := by
      simp only [pyRound, hf]
      norm_num
    simp only [tcRoundTrip, frames_to_tc, hp]
    norm_num

theorem c3_tc_round_trip_witness :
    1 ≤ pyRound 24 ∧ tcRoundTrip 90061 24 = some ((90061 : ℕ) : ℤ) := by
  have h24 : pyRound 24 = 24 := by
    have e : ((24 : ℤ) : ℚ) = (24 : ℚ) := by norm_num
    rw [← e, pyRound_intCast]
  exact ⟨by omega, c3_tc_round_trip 24 90061 (by omega)⟩

/-- C5 (amended): a record is marked skip exactly when some configured
filter fires, where a filter fires when its template result is non-empty
(and not None), its equality target is non-empty, and the comparison is
positive — equality for a non-inverted filter, non-equality for an inverted
one; filters with an empty template result or an empty equality target
never contribute. -/
theorem count_pos_bool (b : Bool) (m : ℕ) :
    decide (0 < (if b = true then 1 else 0) + m) = (b || decide (0 < m)) := by
  cases b <;> simp

theorem c5_skip_filters_amended (re : ReEngine) (fs : List SkipFilter)
    (line : List (String × List Char)) :
    is_match_skip re fs line = fs.any (fun f => filterFires re line f) := by
  unfold is_match_skip
  induction fs with
  | nil => rfl
  | cons f rest ih =>
    simp only [filterMatches, List.any_cons, ← ih]
    exact count_pos_bool (filterFires re line f) (filterMatches re line rest)

/-- C5 counterexample: an inverted filter with an empty equality target and
the non-empty template result x fires under the claim's wording (the result
differs from the empty target), but the source requires a non-empty equals
value, so the record is not skipped. -/
theorem c5_skip_filters_cex :
    is_match_skip reValX [c5Filter] [("c", ['y'])] = false ∧
    ([c5Filter].any fun f => specFilterFires reValX [("c", ['y'])] f) = true := by
  constructor <;> rfl

theorem fillAux_name_scan (toks : TokenMap) (name : List Char)
    (acc tail : List Char) (h : rbrace ∉ name) :
    fillAux toks (some acc) (name ++ rbrace :: tail) =
      (match lookupTok toks (acc.reverse ++ name) with
       | some v => v
       | none => lbrace :: ((acc.reverse ++ name) ++ [rbrace])) ++
        fillAux toks none tail := by
  induction name generalizing acc with
  | nil =>
    simp only [List.nil_append, List.append_nil]
    rw [fillAux, if_pos rfl]
  | cons c cs ih =>
    have hc : c ≠ rbrace := fun hc => h (hc ▸ List.mem_cons_self c cs)
    have hcs : rbrace ∉ cs := fun hm => h (List.mem_cons_of_mem c hm)
    rw [List.cons_append, fillAux, if_neg hc, ih (c :: acc) hcs]
    have e : (c :: acc).reverse ++ cs = acc.reverse ++ (c :: cs) := by
      simp
    rw [e]

theorem fillTemplate_placeholder (toks : TokenMap) (name tail : List Char)
    (h : rbrace ∉ name) :
    fillTemplate toks (lbrace :: (name ++ rbrace :: tail)) =
      (match lookupTok toks name with
       | some v => v
       | none => lbrace :: (name ++ [rbrace])) ++ fillTemplate toks tail := by
  unfold fillTemplate
  rw [fillAux, if_pos rfl]
  have h2 := fillAux_name_scan toks name [] tail h
  simp only [List.reverse_nil, List.nil_append] at h2
  exact h2

/-- C7: the Template Engine substitutes each resolved placeholder from the
TokenMap and keeps an unresolved placeholder literally with its braces;
it returns the empty string when the pattern fails to compile; and with no
replacement it returns group 1 of the first match of the pattern in the
filled template, the empty string when there is no match or when the
pattern has no group 1 (a group 1 that did not participate yields the
Python None the source returns). -/
theorem c7_template_engine :
    (∀ (toks : TokenMap) (name tail v : List Char), rbrace ∉ name →
      lookupTok toks name = some v →
      fillTemplate toks (lbrace :: (name ++ rbrace :: tail)) =
        v ++ fillTemplate toks tail) ∧
    (∀ (toks : TokenMap) (name tail : List Char), rbrace ∉ name →
      lookupTok toks name = none →
      fillTemplate toks (lbrace :: (name ++ rbrace :: tail)) =
        (lbrace :: (name ++ [rbrace])) ++ fillTemplate toks tail) ∧
    (∀ (re : ReEngine) (source : List Char) (toks : TokenMap) (pat : String)
      (repl : List Char), re.compile pat = none →
      regex_test re source toks pat repl = some []) ∧
    (∀ (re : ReEngine) (source : List Char) (toks : TokenMap) (pat : String)
      (c : CompiledPattern), re.compile pat = some c →
      c.searchG1 (fillTemplate toks source) = none →
      regex_test re source toks pat [] = some []) ∧
    (∀ (re : ReEngine) (source : List Char) (toks : TokenMap) (pat : String)
      (c : CompiledPattern), re.compile pat = some c →
      c.searchG1 (fillTemplate toks source) = some Group1Result.err →
      regex_test re source toks pat [] = some []) ∧
    (∀ (re : ReEngine) (source : List Char) (toks : TokenMap) (pat : String)
      (c : CompiledPattern) (g : Option (List Char)), re.compile pat = some c →
      c.searchG1 (fillTemplate toks source) = some (Group1Result.val g) →
      regex_test re source toks pat [] = g) := by
  refine ⟨?_, ?_, ?_, ?_, ?_, ?_⟩
  · intro toks name tail v hb hl
    rw [fillTemplate_placeholder toks name tail hb, hl]
  · intro toks name tail hb hl
    rw [fillTemplate_placeholder toks name tail hb, hl]
  · intro re source toks pat repl h
    simp [regex_test, h]
  · intro re source toks pat c h hs
    simp [regex_test, h, hs]
  · intro re source toks pat c h hs
    simp [regex_test, h, hs]
  · intro re source toks pat c g h hs
    simp [regex_test, h, hs]

theorem c7_template_engine_witness :
    fillTemplate [(['a'], ['v'])] (lbrace :: (['a'] ++ rbrace :: [])) =
      ['v'] ++ fillTemplate [(['a'], ['v'])] [] ∧
    fillTemplate [] (lbrace :: (['b'] ++ rbrace :: [])) =
      (lbrace :: (['b'] ++ [rbrace])) ++ fillTemplate [] [] ∧
    regex_test reFailAll ['s'] [] "p" ['r'] = some [] ∧
    regex_test reNoMatch ['s'] [] "p" [] = some [] ∧
    regex_test reErr ['s'] [] "p" [] = some [] ∧
    regex_test reValX ['s'] [] "p" [] = some ['x'] :=
  ⟨c7_template_engine.1 [(['a'], ['v'])] ['a'] [] ['v'] (by decide) rfl,
   c7_template_engine.2.1 [] ['b'] [] (by decide) rfl,
   c7_template_engine.2.2.1 reFailAll ['s'] [] "p" ['r'] rfl,
   c7_template_engine.2.2.2.1 reNoMatch ['s'] [] "p" cpNoMatch rfl rfl,
   c7_template_engine.2.2.2.2.1 reErr ['s'] [] "p" cpErr rfl rfl,
   c7_template_engine.2.2.2.2.2 reValX ['s'] [] "p" cpValX (some ['x']) rfl rfl⟩

/-- C9: the reel field of a rendered line — a None or empty derived label
defaults to AX and a short label is space-padded to the configured width
(the code then appends one separator space), but a label longer than the
width is not truncated: with width 4 the eight-character label ABCDEFGH is
emitted in full (nine characters with the separator instead of five), so
the field does not occupy the configured width, contradicting the
documented trimming. -/
theorem c9_reel_width :
    format_reel (some []) 4 = ['A', 'X', ' ', ' ', ' '] ∧
    format_reel none 4 = ['A', 'X', ' ', ' ', ' '] ∧
    format_reel (some ['A', 'B', 'C', 'D', 'E', 'F', 'G', 'H']) 4 =
      ['A', 'B', 'C', 'D', 'E', 'F', 'G', 'H', ' '] ∧
    (format_reel (some ['A', 'B', 'C', 'D', 'E', 'F', 'G', 'H']) 4).length ≠ 5 := by
  refine ⟨rfl, rfl, rfl, by decide⟩

theorem dictSet_dictSet {κ β : Type} [DecidableEq κ] (d : List (κ × β))
    (k : κ) (v w : β) : dictSet (dictSet d k v) k w = dictSet d k w := by
  by_cases h : d.any (fun p => decide (p.1 = k)) = true
  · have h1 : dictSet d k v = d.map (fun p => if p.1 = k then (k, v) else p) := by
      rw [dictSet, if_pos h]
    have h2 : (dictSet d k v).any (fun p => decide (p.1 = k)) = true := by
      rw [h1, List.any_eq_true]
      obtain ⟨p, hp, hpk⟩ := List.any_eq_true.mp h
      exact ⟨(k, v), List.mem_map.mpr ⟨p, hp, by simp [of_decide_eq_true hpk]⟩,
        by simp⟩
    rw [dictSet, if_pos h2, h1, dictSet, if_pos h, List.map_map]
    apply List.map_congr_left
    intro p _
    by_cases hpk : p.1 = k <;> simp [hpk]
  · have h1 : dictSet d k v = d ++ [(k, v)] := by rw [dictSet, if_neg h]
    have hall : ∀ p ∈ d, ¬ p.1 = k := by
      intro p hp hpk
      exact h (List.any_eq_true.mpr ⟨p, hp, decide_eq_true hpk⟩)
    have h2 : (dictSet d k v).any (fun p => decide (p.1 = k)) = true := by
      rw [h1, List.any_eq_true]
      exact ⟨(k, v), List.mem_append_right _ (List.mem_singleton_self _), by simp⟩
    rw [dictSet, if_pos h2, h1, List.map_append, dictSet, if_neg h]
    congr 1
    · have hid : ∀ p ∈ d, (if p.1 = k then (k, w) else p) = p :=
        fun p hp => if_neg (hall p hp)
      rw [List.map_congr_left hid]
      simp
    · simp

theorem bucketStep_none {α : Type} (ge se : String → Option String)
    (sm : List (Option String × List GroupRec)) (pv : String × α)
    (h : ge (basename pv.1) = none) :
    bucketStep ge se sm pv =
      dictSet sm none [⟨pv.1, basename pv.1, none, se (basename pv.1)⟩] := by
  simp [bucketStep, h]

theorem foldl_bucketStep_all_none {α : Type} (ge se : String → Option String)
    (csvs : List (String × α)) :
    ∀ (sm : List (Option String × List GroupRec)),
    (∀ p ∈ csvs, ge (basename p.1) = none) →
    csvs.foldl (bucketStep ge se) sm =
      (match csvs.getLast? with
       | none => sm
       | some e => dictSet sm none [⟨e.1, basename e.1, none, se (basename e.1)⟩]) := by
  induction csvs with
  | nil =>
    intro sm _
    rfl
  | cons e cs ih =>
    intro sm hall
    have he : ge (basename e.1) = none := hall e (List.mem_cons_self e cs)
    have hcs : ∀ p ∈ cs, ge (basename p.1) = none :=
      fun p hp => hall p (List.mem_cons_of_mem e hp)
    rw [List.foldl_cons, bucketStep_none ge se sm e he, ih _ hcs]
    cases cs with
    | nil => rfl
    | cons y t =>
      rw [List.getLast?_cons_cons]
      cases hyl : (y :: t).getLast? with
      | none => exact absurd (List.getLast?_eq_none_iff.mp hyl) (by simp)
      | some el => simp only [dictSet_dictSet]

theorem lookup_getLast {α : Type} (l : List (String × α)) (e : String × α)
    (hND : (l.map Prod.fst).Nodup) (hl : l.getLast? = some e) :
    l.lookup e.1 = some e.2 := by
  induction l with
  | nil => simp at hl
  | cons x rest ih =>
    obtain ⟨x1, x2⟩ := x
    cases rest with
    | nil =>
      have hxe : (x1, x2) = e := by simpa using hl
      rw [← hxe]
      simp [List.lookup]
    | cons y t =>
      rw [List.getLast?_cons_cons] at hl
      have hmem : e ∈ y :: t := by
        obtain ⟨hne, heq⟩ :=
          List.mem_getLast?_eq_getLast (show e ∈ (y :: t).getLast? from hl)
        rw [heq]
        exact List.getLast_mem hne
      rw [List.map_cons] at hND
      have hnd := List.nodup_cons.mp hND
      have hxne : e.1 ≠ x1 := by
        intro hc
        apply hnd.1
        rw [← hc]
        exact List.mem_map.mpr ⟨e, hmem, rfl⟩
      have hbeq : (e.1 == x1) = false := beq_eq_false_iff_ne.mpr hxne
      simp only [List.lookup_cons, hbeq]
      exact ih hnd.2 hl

/-- C4 counterexample: two batches whose group pattern yields no key do not
share a surviving bucket — the second replaces the first in the implicit
None bucket, so with highest-only disabled the first batch x is dropped
from the grouping output, leaving only the second batch y. -/
theorem c4_absent_group_cex :
    group_csvs geNone seEmpty false [("x", (1 : ℕ)), ("y", 2)] = some [("y", 2)] ∧
    ("x", (1 : ℕ)) ∉ [("y", (2 : ℕ))] := by
  constructor
  · rfl
  · decide

/-- C4 (amended): batches with an absent group key share the implicit None
bucket, but each new one replaces the bucket's content, so whatever the
highest-only policy, exactly the last such batch survives grouping when all
batches lack a group key. -/
theorem c4_absent_group_amended {α : Type} (ge se : String → Option String)
    (ho : Bool) (csvs : List (String × α))
    (hND : (csvs.map Prod.fst).Nodup)
    (hall : ∀ p ∈ csvs, ge (basename p.1) = none) :
    group_csvs ge se ho csvs =
      some (match csvs.getLast? with
            | none => []
            | some e => [e]) := by
  unfold group_csvs bucketsOf
  rw [foldl_bucketStep_all_none ge se csvs [] hall]
  cases hcl : csvs.getLast? with
  | none => rfl
  | some e =>
    have hlk : csvs.lookup e.1 = some e.2 := lookup_getLast csvs e hND hcl
    cases ho with
    | true => simp [dictSet, List.foldlM, emitBucket, pySortedRecs, hlk]
    | false => simp [dictSet, List.foldlM, emitBucket, pySortedRecs, hlk]

theorem c4_absent_group_amended_witness :
    group_csvs geNone seEmpty true [("x", (1 : ℕ)), ("y", 2)] = some [("y", 2)] := by
  have h := c4_absent_group_amended geNone seEmpty true [("x", (1 : ℕ)), ("y", 2)]
    (by decide) (fun p _ => rfl)
  simpa using h

theorem lexLe_total : ∀ a b : List Char, lexLe a b = true ∨ lexLe b a = true := by
  intro a
  induction a with
  | nil => intro b; left; rfl
  | cons x as ih =>
    intro b
    cases b with
    | nil => right; rfl
    | cons y bs =>
      simp only [lexLe]
      by_cases hxy : x.toNat < y.toNat
      · left
        rw [if_pos hxy]
      · by_cases hyx : y.toNat < x.toNat
        · right
          rw [if_pos hyx]
        · rcases ih bs with h | h
          · left
            rw [if_neg hxy, if_neg hyx]
            exact h
          · right
            rw [if_neg hyx, if_neg hxy]
            exact h

theorem lexLe_trans : ∀ a b c : List Char,
    lexLe a b = true → lexLe b c = true → lexLe a c = true := by
  intro a
  induction a with
  | nil => intro b c _ _; rfl
  | cons x as ih =>
    intro b c hab hbc
    cases b with
    | nil => simp [lexLe] at hab
    | cons y bs =>
      cases c with
      | nil => simp [lexLe] at hbc
      | cons z cs =>
        simp only [lexLe] at hab hbc ⊢
        by_cases hyz : y.toNat < z.toNat
        · by_cases hxy : x.toNat < y.toNat
          · have hxz : x.toNat < z.toNat := by omega
            rw [if_pos hxz]
          · by_cases hyx : y.toNat < x.toNat
            · rw [if_neg hxy, if_pos hyx] at hab
              cases hab
            · have hxz : x.toNat < z.toNat := by omega
              rw [if_pos hxz]
        · by_cases hzy : z.toNat < y.toNat
          · rw [if_neg hyz, if_pos hzy] at hbc
            cases hbc
          · by_cases hxy : x.toNat < y.toNat
            · have hxz : x.toNat < z.toNat := by omega
              rw [if_pos hxz]
            · by_cases hyx : y.toNat < x.toNat
              · rw [if_neg hxy, if_pos hyx] at hab
                cases hab
              · have h1 : ¬ x.toNat < z.toNat := by omega
                have h2 : ¬ z.toNat < x.toNat := by omega
                rw [if_neg hxy, if_neg hyx] at hab
                rw [if_neg hyz, if_neg hzy] at hbc
                rw [if_neg h1, if_neg h2]
                exact ih bs cs hab hbc

theorem keyLe_total (a b : GroupRec) : keyLe a b = true ∨ keyLe b a = true :=
  lexLe_total _ _

theorem keyLe_trans (a b c : GroupRec) (h1 : keyLe a b = true)
    (h2 : keyLe b c = true) : keyLe a c = true :=
  lexLe_trans _ _ _ h1 h2

theorem insertSorted_perm (r : GroupRec) (l : List GroupRec) :
    (insertSorted r l).Perm (r :: l) := by
  induction l with
  | nil => exact List.Perm.refl _
  | cons x xs ih =>
    by_cases h : keyLe x r = true
    · rw [insertSorted, if_pos h]
      exact (ih.cons x).trans (List.Perm.swap r x xs)
    · rw [insertSorted, if_neg h]

theorem pySortRecs_perm_aux (l : List GroupRec) :
    ∀ acc : List GroupRec,
      (l.foldl (fun acc r => insertSorted r acc) acc).Perm (acc ++ l) := by
  induction l with
  | nil => intro acc; simp
  | cons r rs ih =>
    intro acc
    rw [List.foldl_cons]
    refine (ih (insertSorted r acc)).trans ?_
    have h1 : (insertSorted r acc ++ rs).Perm ((r :: acc) ++ rs) :=
      (insertSorted_perm r acc).append_right rs
    exact h1.trans List.perm_middle.symm

theorem insertSorted_pairwise (r : GroupRec) (l : List GroupRec)
    (h : l.Pairwise (fun a b => keyLe a b = true)) :
    (insertSorted r l).Pairwise (fun a b => keyLe a b = true) := by
  induction l with
  | nil => simp [insertSorted]
  | cons x xs ih =>
    rw [List.pairwise_cons] at h
    by_cases hle : keyLe x r = true
    · rw [insertSorted, if_pos hle, List.pairwise_cons]
      constructor
      · intro b hb
        rcases List.mem_cons.mp ((insertSorted_perm r xs).mem_iff.mp hb) with
          rfl | hbx
        · exact hle
        · exact h.1 b hbx
      · exact ih h.2
    · rw [insertSorted, if_neg hle, List.pairwise_cons]
      have hrx : keyLe r x = true := by
        rcases keyLe_total x r with hc | hc
        · exact absurd hc hle
        · exact hc
      constructor
      · intro b hb
        rcases List.mem_cons.mp hb with rfl | hbx
        · exact hrx
        · exact keyLe_trans r x b hrx (h.1 b hbx)
      · exact List.pairwise_cons.mpr h

theorem pySortRecs_pairwise_aux (l : List GroupRec) :
    ∀ acc : List GroupRec,
      acc.Pairwise (fun a b => keyLe a b = true) →
      (l.foldl (fun acc r => insertSorted r acc) acc).Pairwise
        (fun a b => keyLe a b = true) := by
  induction l with
  | nil => intro acc hacc; exact hacc
  | cons r rs ih =>
    intro acc hacc
    rw [List.foldl_cons]
    exact ih (insertSorted r acc) (insertSorted_pairwise r acc hacc)

theorem pySortedRecs_perm_sorted (l sorted : List GroupRec)
    (h : pySortedRecs l = some sorted) :
    sorted.Perm l ∧ sorted.Pairwise (fun a b => keyLe a b = true) := by
  unfold pySortedRecs at h
  by_cases h1 : l.length ≤ 1
  · rw [if_pos h1] at h
    injection h with h2
    subst h2
    refine ⟨List.Perm.refl _, ?_⟩
    rcases l with _ | ⟨x, rest⟩
    · exact List.Pairwise.nil
    · rcases rest with _ | ⟨y, t⟩
      · simp
      · simp at h1
  · rw [if_neg h1] at h
    by_cases h2 : l.all (fun r => r.sortKey.isSome) = true
    · rw [if_pos h2] at h
      injection h with h3
      subst h3
      constructor
      · simpa using pySortRecs_perm_aux l []
      · exact pySortRecs_pairwise_aux l [] List.Pairwise.nil
    · rw [if_neg h2] at h
      cases h

/-- C8: grouping policy — on the example batches a_v1, a_v2 and b_v1,
whose group keys are a, a and b and whose sort keys are v1, v2 and v1,
highest-only grouping keeps exactly a_v2 and b_v1, and grouping with the
policy unset keeps all three in sorted order; in general, every sorted
bucket is a permutation of its bucket ascending by plain-string sort key,
and with highest-only a bucket contributes exactly the entry of the last
record of the sorted bucket. -/
theorem c8_grouping_policy :
    group_csvs geFirst seDrop2 true
        [("a_v1", (1 : ℕ)), ("a_v2", 2), ("b_v1", 3)] =
      some [("a_v2", 2), ("b_v1", 3)] ∧
    group_csvs geFirst seDrop2 false
        [("a_v1", (1 : ℕ)), ("a_v2", 2), ("b_v1", 3)] =
      some [("a_v1", 1), ("a_v2", 2), ("b_v1", 3)] ∧
    (∀ (l sorted : List GroupRec), pySortedRecs l = some sorted →
      sorted.Perm l ∧ sorted.Pairwise (fun a b => keyLe a b = true)) ∧
    (∀ (csvs acc : List (String × ℕ)) (l sorted : List GroupRec)
      (last : GroupRec) (v : ℕ),
      pySortedRecs l = some sorted → sorted.getLast? = some last →
      csvs.lookup last.csv_path = some v →
      emitBucket csvs true acc l = some (dictSet acc last.csv_path v)) := by
  refine ⟨by rfl, by rfl, pySortedRecs_perm_sorted, ?_⟩
  intro csvs acc l sorted last v h1 h2 h3
  simp [emitBucket, h1, h2, h3]

theorem c8_grouping_policy_witness :
    ([GroupRec.mk "a_v1" "a_v1" (some "a") (some "v1"),
      GroupRec.mk "a_v2" "a_v2" (some "a") (some "v2")].Perm
      [GroupRec.mk "a_v1" "a_v1" (some "a") (some "v1"),
       GroupRec.mk "a_v2" "a_v2" (some "a") (some "v2")] ∧
     List.Pairwise (fun a b : GroupRec => keyLe a b = true)
       [GroupRec.mk "a_v1" "a_v1" (some "a") (some "v1"),
        GroupRec.mk "a_v2" "a_v2" (some "a") (some "v2")]) ∧
    emitBucket [("a_v1", (1 : ℕ)), ("a_v2", 2)] true []
        [GroupRec.mk "a_v1" "a_v1" (some "a") (some "v1"),
         GroupRec.mk "a_v2" "a_v2" (some "a") (some "v2")] =
      some (dictSet [] "a_v2" 2) :=
  ⟨c8_grouping_policy.2.2.1 _ _ (by rfl),
   c8_grouping_policy.2.2.2 _ _ _ _ _ _ (by rfl) (by rfl) (by rfl)⟩

theorem dictSet_keys {κ β : Type} [DecidableEq κ] (d : List (κ × β)) (k : κ)
    (v : β) :
    (dictSet d k v).map Prod.fst =
      if d.any (fun p => decide (p.1 = k)) = true then d.map Prod.fst
      else d.map Prod.fst ++ [k] := by
  unfold dictSet
  by_cases h : d.any (fun p => decide (p.1 = k)) = true
  · rw [if_pos h, if_pos h, List.map_map]
    apply List.map_congr_left
    intro p _
    by_cases hpk : p.1 = k <;> simp [hpk]
  · rw [if_neg h, if_neg h]
    simp

theorem dictSet_keys_nodup {κ β : Type} [DecidableEq κ] (d : List (κ × β))
    (k : κ) (v : β) (h : (d.map Prod.fst).Nodup) :
    ((dictSet d k v).map Prod.fst).Nodup := by
  rw [dictSet_keys]
  by_cases hany : d.any (fun p => decide (p.1 = k)) = true
  · rw [if_pos hany]
    exact h
  · rw [if_neg hany]
    rw [List.nodup_append]
    refine ⟨h, List.nodup_singleton k, ?_⟩
    rw [List.disjoint_singleton]
    intro hk
    obtain ⟨p, hp, hpe⟩ := List.mem_map.mp hk
    exact hany (List.any_eq_true.mpr ⟨p, hp, decide_eq_true hpe⟩)

theorem dictSet_keys_all {κ β : Type} [DecidableEq κ] (d : List (κ × β))
    (k : κ) (v : β) (q : κ → Bool) (hd : (d.map Prod.fst).all q = true)
    (hk : q k = true) : ((dictSet d k v).map Prod.fst).all q = true := by
  rw [dictSet_keys]
  by_cases hany : d.any (fun p => decide (p.1 = k)) = true
  · rw [if_pos hany]
    exact hd
  · rw [if_neg hany]
    simp [List.all_append, hd, hk]

theorem lookup_map_replace {β : Type} (d : List (List Char × β))
    (k : List Char) (v : β) (h : d.any (fun p => decide (p.1 = k)) = true) :
    (d.map (fun p => if p.1 = k then (k, v) else p)).lookup k = some v := by
  induction d with
  | nil => simp at h
  | cons q rest ih =>
    obtain ⟨q1, q2⟩ := q
    by_cases hq : q1 = k
    · subst hq
      simp [List.lookup_cons]
    · have h2 : rest.any (fun p => decide (p.1 = k)) = true := by
        rcases List.any_eq_true.mp h with ⟨p, hp, hpk⟩
        rcases List.mem_cons.mp hp with rfl | hpr
        · exact absurd (of_decide_eq_true hpk) hq
        · exact List.any_eq_true.mpr ⟨p, hpr, hpk⟩
      simp only [List.map_cons]
      rw [if_neg hq, List.lookup_cons]
      have hbeq : (k == q1) = false :=
        beq_eq_false_iff_ne.mpr (fun hc => hq hc.symm)
      simp only [hbeq]
      exact ih h2

theorem lookup_append_fresh {β : Type} (d : List (List Char × β))
    (k : List Char) (v : β) (h : ∀ p ∈ d, p.1 ≠ k) :
    (d ++ [(k, v)]).lookup k = some v := by
  induction d with
  | nil => simp [List.lookup_cons]
  | cons q rest ih =>
    obtain ⟨q1, q2⟩ := q
    have hq : q1 ≠ k := h (q1, q2) (List.mem_cons_self _ _)
    rw [List.cons_append, List.lookup_cons]
    have hbeq : (k == q1) = false :=
      beq_eq_false_iff_ne.mpr (fun hc => hq hc.symm)
    simp only [hbeq]
    exact ih (fun p hp => h p (List.mem_cons_of_mem _ hp))

theorem dictSet_lookup_self {β : Type} (d : List (List Char × β))
    (k : List Char) (v : β) : (dictSet d k v).lookup k = some v := by
  unfold dictSet
  by_cases h : d.any (fun p => decide (p.1 = k)) = true
  · rw [if_pos h]
    exact lookup_map_replace d k v h
  · rw [if_neg h]
    refine lookup_append_fresh d k v ?_
    intro p hp hpk
    exact h (List.any_eq_true.mpr ⟨p, hp, decide_eq_true hpk⟩)

theorem lookup_map_replace_ne {β : Type} (d : List (List Char × β))
    (k k' : List Char) (v : β) (hne : k' ≠ k) :
    (d.map (fun p => if p.1 = k then (k, v) else p)).lookup k' =
      d.lookup k' := by
  induction d with
  | nil => rfl
  | cons q rest ih =>
    obtain ⟨q1, q2⟩ := q
    by_cases hq : q1 = k
    · subst hq
      simp only [List.map_cons]
      rw [if_pos trivial]
      rw [List.lookup_cons, List.lookup_cons]
      have h1 : (k' == q1) = false := beq_eq_false_iff_ne.mpr hne
      simp only [h1]
      exact ih
    · simp only [List.map_cons]
      rw [if_neg hq, List.lookup_cons, List.lookup_cons]
      cases hbeq : (k' == q1) with
      | true => simp only [hbeq]
      | false =>
        simp only [hbeq]
        exact ih

theorem lookup_append_ne {β : Type} (d : List (List Char × β))
    (k k' : List Char) (v : β) (hne : k' ≠ k) :
    (d ++ [(k, v)]).lookup k' = d.lookup k' := by
  induction d with
  | nil =>
    simp only [List.nil_append, List.lookup_cons]
    have h1 : (k' == k) = false := beq_eq_false_iff_ne.mpr hne
    simp [h1, List.lookup]
  | cons q rest ih =>
    obtain ⟨q1, q2⟩ := q
    rw [List.cons_append, List.lookup_cons, List.lookup_cons]
    cases hbeq : (k' == q1) with
    | true => simp only [hbeq]
    | false =>
      simp only [hbeq]
      exact ih

theorem dictSet_lookup_ne {β : Type} (d : List (List Char × β))
    (k k' : List Char) (v : β) (hne : k' ≠ k) :
    (dictSet d k v).lookup k' = d.lookup k' := by
  unfold dictSet
  by_cases h : d.any (fun p => decide (p.1 = k)) = true
  · rw [if_pos h]
    exact lookup_map_replace_ne d k k' v hne
  · rw [if_neg h]
    exact lookup_append_ne d k k' v hne

/-- C10: the discovered media collection is keyed by the derived match key —
keys are unique (at most one entry per key), an empty key never appears
(files with an empty or None derived key are excluded), and the entry
stored at a key is the last discovered file whose derived key equals it,
earlier same-key files having been silently replaced. -/
theorem c10_media_keyed_last_wins {μ : Type} (re : ReEngine) (conf : MediaConf)
    (tokensOf : String → TokenMap) (probe : String → μ)
    (files : List String) :
    ((find_media re conf tokensOf probe files).map Prod.fst).Nodup ∧
    (∀ k : List Char,
      (find_media re conf tokensOf probe files).lookup k =
        (files.reverse.find?
            (fun f => mediaKeyOf re conf tokensOf f == some k)).map
          (fun f => (f, probe f))) ∧
    ((find_media re conf tokensOf probe files).map Prod.fst).all
      (fun k => !(k == [])) = true := by
  induction files using List.reverseRecOn with
  | nil => exact ⟨List.nodup_nil, fun k => rfl, rfl⟩
  | append_singleton fs f ih =>
    obtain ⟨ihN, ihL, ihA⟩ := ih
    have hfm : find_media re conf tokensOf probe (fs ++ [f]) =
        (match regex_test re conf.media (tokensOf f) conf.media_pattern
            conf.media_repl with
         | none => find_media re conf tokensOf probe fs
         | some r =>
           if r ≠ [] then
             dictSet (find_media re conf tokensOf probe fs) r (f, probe f)
           else find_media re conf tokensOf probe fs) := by
      simp only [find_media, List.foldl_append, List.foldl_cons, List.foldl_nil]
    have hrev : (fs ++ [f]).reverse = f :: fs.reverse := by
      rw [List.reverse_append]
      rfl
    cases hreg : regex_test re conf.media (tokensOf f) conf.media_pattern
        conf.media_repl with
    | none =>
      rw [hfm]
      simp only [hreg]
      refine ⟨ihN, ?_, ihA⟩
      intro k
      rw [hrev, List.find?_cons]
      have hkey : (mediaKeyOf re conf tokensOf f == some k) = false := by
        simp [mediaKeyOf, hreg]
      simp only [hkey]
      exact ihL k
    | some r =>
      by_cases hr : r = []
      · subst hr
        rw [hfm]
        simp only [hreg, ne_eq, not_true_eq_false, if_neg (by simp : ¬ (([] : List Char) ≠ []))]
        refine ⟨ihN, ?_, ihA⟩
        intro k
        rw [hrev, List.find?_cons]
        have hkey : (mediaKeyOf re conf tokensOf f == some k) = false := by
          simp [mediaKeyOf, hreg]
        simp only [hkey]
        exact ihL k
      · rw [hfm]
        simp only [hreg, if_pos (show r ≠ [] from hr)]
        refine ⟨dictSet_keys_nodup _ _ _ ihN, ?_, ?_⟩
        · intro k
          rw [hrev, List.find?_cons]
          by_cases hk : k = r
          · subst hk
            have hkey : (mediaKeyOf re conf tokensOf f == some k) = true := by
              simp [mediaKeyOf, hreg, hr]
            simp only [hkey]
            rw [dictSet_lookup_self]
            rfl
          · have hkey : (mediaKeyOf re conf tokensOf f == some k) = false := by
              simp only [mediaKeyOf, hreg, if_pos (show r ≠ [] from hr)]
              rw [beq_eq_false_iff_ne]
              intro hc
              exact hk (Option.some.inj hc).symm
            simp only [hkey]
            rw [dictSet_lookup_ne _ _ _ _ hk]
            exact ihL k
        · refine dictSet_keys_all _ _ _ _ ihA ?_
          have : (r == ([] : List Char)) = false := beq_eq_false_iff_ne.mpr hr
          simp [this]
